import Mathlib

/-!
Verification of the `data_pipeline_base` repository (src/src/pipeline.py).

The program is a continuation-passing pipeline:

* `Pipeline` owns `self.queue : List[PipelineStep]`, built by the variadic
  constructor, extended by `append`, measured by `__len__`, and invoked by
  `__call__(data_context, error_handler=None)`, which constructs
  `PipelineCursor(self.queue, error_handler or _default_error_handler)`
  and calls it with the data context.
* `PipelineCursor.__call__(data_context)`: if the queue is empty, return.
  Otherwise `current_step = queue[0]`, `next_step = PipelineCursor(queue[1:],
  error_handler)` (a by-value slice), then
  `try: current_step(data_context, next_step)
   except Exception as error: error_handler(error, data_context, next_step)`.
* `_default_error_handler(error, data_context, next_step)` re-raises `error`.

Embedding choices, faithful to the source:

* A step is an arbitrary Python callable receiving `(data_context, next_step)`.
  We embed step behaviour as a deep program type `SProg`: a step may finish
  normally, raise a fault, invoke its continuation with a chosen data value
  (propagating any fault the continuation raises, as plain Python code that
  does not catch would), or call `pipeline.append` on the enclosing pipeline
  (modelling a step closed over the Pipeline object mutating its live list).
* An error handler receives `(error, data_context, next_step)` and may return
  normally (swallow), raise, or invoke the continuation; `HProg` embeds these.
  A Python handler can inspect `next_step.queue`, so the handler function also
  receives the list of remaining step ids.
* Python exceptions: `except Exception` catches only faults whose class
  derives from `Exception`; a `BaseException` such as `SystemExit` passes the
  cursor boundary uncaught.  A `Fault` carries a code and an `isException`
  flag recording that class membership.
* Execution is observed through a ghost trace: the interpreter records one
  `stepExec` event each time a cursor executes its head step, and one
  `handlerCall` event each time a cursor hands a caught fault to the error
  handler.  The single mutable list `pipeline.queue` is threaded through the
  interpreter as state `pq`; all cursor queues other than the root are slices
  (copies), which the interpreter passes by value.
-/

namespace PipelineBase

/-- A fault (Python exception object): a payload code plus the fact of
whether its class derives from `Exception` (as opposed to a bare
`BaseException` like `SystemExit` or `KeyboardInterrupt`). -/
structure Fault where
  code : Nat
  isException : Bool
deriving DecidableEq, Repr

/-- Outcome of executing a call: normal return or a propagating fault. -/
inductive Outcome where
  | ok : Outcome
  | fault : Fault → Outcome
deriving DecidableEq, Repr

/-- Ghost trace events: execution of the step with a given id on a given
data value, and invocation of the error handler with a caught fault, the
data context, and the ids of the steps remaining in the continuation. -/
inductive Ev (δ : Type) where
  | stepExec : Nat → δ → Ev δ
  | handlerCall : Fault → δ → List Nat → Ev δ
deriving DecidableEq, Repr

/-- Deep embedding of a step body (what the callable does once invoked with
a data context and a continuation): finish, raise, call the continuation
with a data value and then continue (a fault from the continuation
propagates out of the body, as in Python code that does not catch), or
append a step (given by id and body) to the live list of the enclosing pipeline
and continue. -/
inductive SProg (δ : Type) where
  | done : SProg δ
  | raiseF : Fault → SProg δ
  | call : δ → SProg δ → SProg δ
  | appendPipe : Nat → (δ → SProg δ) → SProg δ → SProg δ

/-- A pipeline step: an id (for the ghost trace) and a body mapping the
received data context to the behaviour it performs. -/
structure Step (δ : Type) where
  id : Nat
  body : δ → SProg δ

/-- Deep embedding of an error handler body: return normally (swallow),
raise a fault (re-raise when it is the caught fault), or invoke the
continuation with a data value and then continue (a fault from the
continuation propagates out of the handler). -/
inductive HProg (δ : Type) where
  | hdone : HProg δ
  | hraise : Fault → HProg δ
  | hcall : δ → HProg δ → HProg δ

/-- An error handler: receives the fault, the data context, and the ids of
the steps remaining in the continuation cursor (a Python handler can read
`next_step.queue`), and decides its behaviour. -/
def Handler (δ : Type) : Type := Fault → δ → List Nat → HProg δ

/-- `_default_error_handler(error, data_context, next_step): raise error`. -/
def defaultErrorHandler (δ : Type) : Handler δ := fun e _ _ => HProg.hraise e

/-- Result of a call: the ghost trace, the outcome, and the live pipeline
step list afterwards. -/
structure Res (δ : Type) where
  log : List (Ev δ)
  out : Outcome
  pq : List (Step δ)

/-- Run a step body, given the continuation cursor as a function (data
context and current live list in, result out).  A fault arising from a
continuation call propagates out of the body uncaught. -/
def runS {δ : Type} (next : δ → List (Step δ) → Res δ) :
    SProg δ → List (Step δ) → Res δ
  | SProg.done, pq => ⟨[], Outcome.ok, pq⟩
  | SProg.raiseF e, pq => ⟨[], Outcome.fault e, pq⟩
  | SProg.call d k, pq =>
      let r := next d pq
      match r.out with
      | Outcome.ok =>
          let r2 := runS next k r.pq
          ⟨r.log ++ r2.log, r2.out, r2.pq⟩
      | Outcome.fault e => ⟨r.log, Outcome.fault e, r.pq⟩
  | SProg.appendPipe i b k, pq => runS next k (pq ++ [⟨i, b⟩])

/-- Run a handler body, given the continuation cursor.  A fault arising
from a continuation call propagates out of the handler uncaught. -/
def runH {δ : Type} (next : δ → List (Step δ) → Res δ) :
    HProg δ → List (Step δ) → Res δ
  | HProg.hdone, pq => ⟨[], Outcome.ok, pq⟩
  | HProg.hraise e, pq => ⟨[], Outcome.fault e, pq⟩
  | HProg.hcall d k, pq =>
      let r := next d pq
      match r.out with
      | Outcome.ok =>
          let r2 := runH next k r.pq
          ⟨r.log ++ r2.log, r2.out, r2.pq⟩
      | Outcome.fault e => ⟨r.log, Outcome.fault e, r.pq⟩

/-- `PipelineCursor.__call__`, by the queue the cursor holds.  Empty queue:
no-op.  Otherwise execute the head step with the data context and the
continuation cursor over the tail slice `queue[1:]` (emitting a `stepExec`
ghost event); if the execution of the step raises a fault whose class derives
from `Exception`, hand `(fault, data_context, next_step)` to the error
handler (emitting a `handlerCall` ghost event) and let the completion of
the handler be the outcome; any other fault propagates uncaught. -/
def cursorCall {δ : Type} (h : Handler δ) :
    List (Step δ) → δ → List (Step δ) → Res δ
  | [], _, pq => ⟨[], Outcome.ok, pq⟩
  | s :: rest, d, pq =>
      let r := runS (cursorCall h rest) (s.body d) pq
      match r.out with
      | Outcome.ok => ⟨Ev.stepExec s.id d :: r.log, Outcome.ok, r.pq⟩
      | Outcome.fault e =>
          if e.isException then
            let hr := runH (cursorCall h rest) (h e d (rest.map Step.id)) r.pq
            ⟨Ev.stepExec s.id d ::
              (r.log ++ Ev.handlerCall e d (rest.map Step.id) :: hr.log),
              hr.out, hr.pq⟩
          else ⟨Ev.stepExec s.id d :: r.log, Outcome.fault e, r.pq⟩

/-- The `Pipeline` container: `self.queue`. -/
structure Pipeline (δ : Type) where
  queue : List (Step δ)

/-- `Pipeline.append(step)`: add one step at the end of the list. -/
def Pipeline.append {δ : Type} (p : Pipeline δ) (s : Step δ) : Pipeline δ :=
  ⟨p.queue ++ [s]⟩

/-- `Pipeline.__len__`: number of steps currently in the queue. -/
def Pipeline.length {δ : Type} (p : Pipeline δ) : Nat :=
  p.queue.length

/-- `Pipeline.__call__(data_context, error_handler=None)`: build the root
cursor over `self.queue` with the supplied or default handler and call it.
The root cursor reads `queue[0]` and slices `queue[1:]` on entry, before
any step code runs, so its execution is determined by the list contents at
this point; the aliasing of the un-copied list is modelled by `QRef`
below. -/
def Pipeline.call {δ : Type} (p : Pipeline δ) (d : δ)
    (h : Option (Handler δ)) : Res δ :=
  cursorCall (h.getD (defaultErrorHandler δ)) p.queue d p.queue

/-- The queue reference held by a `PipelineCursor` object: the root cursor
is constructed as `PipelineCursor(self.queue, ...)` and stores the very
list object the pipeline mutates (`live`), while every child cursor stores
the fresh list created by the slice `queue[1:]` (`copy`). -/
inductive QRef (δ : Type) where
  | live : QRef δ
  | copy : List (Step δ) → QRef δ

/-- Dereference the stored queue of a cursor against the current
live list. -/
def derefQ {δ : Type} (pq : List (Step δ)) : QRef δ → List (Step δ)
  | QRef.live => pq
  | QRef.copy l => l

/-- A `PipelineCursor` object as data: the stored queue reference and the
error handler. -/
structure PipelineCursorObj (δ : Type) where
  qref : QRef δ
  handler : Handler δ

/-- The root cursor `Pipeline.__call__` constructs:
`PipelineCursor(self.queue, error_handler or _default_error_handler)` —
it stores the live pipeline list itself, not a copy. -/
def Pipeline.rootCursor {δ : Type} (_p : Pipeline δ)
    (h : Option (Handler δ)) : PipelineCursorObj δ :=
  ⟨QRef.live, h.getD (defaultErrorHandler δ)⟩

/-- Invoking a cursor object: dereference its stored queue against the
current live list, then run. -/
def PipelineCursorObj.callObj {δ : Type} (c : PipelineCursorObj δ)
    (pq : List (Step δ)) (d : δ) : Res δ :=
  cursorCall c.handler (derefQ pq c.qref) d pq

/-- A body that never invokes its continuation. -/
def noCallP {δ : Type} : SProg δ → Bool
  | SProg.done => true
  | SProg.raiseF _ => true
  | SProg.call _ _ => false
  | SProg.appendPipe _ _ k => noCallP k

/-- A body that never raises. -/
def tameP {δ : Type} : SProg δ → Bool
  | SProg.done => true
  | SProg.raiseF _ => false
  | SProg.call _ k => tameP k
  | SProg.appendPipe _ _ k => tameP k

/-- A body that never appends to the pipeline. -/
def noAppendP {δ : Type} : SProg δ → Bool
  | SProg.done => true
  | SProg.raiseF _ => true
  | SProg.call _ k => noAppendP k
  | SProg.appendPipe _ _ _ => false

/-- Outcome of a continuation-free body: what it returns or raises. -/
def sOut {δ : Type} : SProg δ → Outcome
  | SProg.done => Outcome.ok
  | SProg.raiseF e => Outcome.fault e
  | SProg.call _ _ => Outcome.ok
  | SProg.appendPipe _ _ k => sOut k

/-- The ids of the `stepExec` events of a trace. -/
def execIds {δ : Type} : List (Ev δ) → List Nat
  | [] => []
  | Ev.stepExec i _ :: t => i :: execIds t
  | Ev.handlerCall _ _ _ :: t => execIds t

/-- Whether an event is a handler invocation. -/
def isHandlerCall {δ : Type} : Ev δ → Bool
  | Ev.stepExec _ _ => false
  | Ev.handlerCall _ _ _ => true

/-- A step that forwards the data context to its continuation unchanged:
`step(ctx, next): next(ctx)`. -/
def passStep (δ : Type) (i : Nat) : Step δ :=
  ⟨i, fun d => SProg.call d SProg.done⟩

/-- A step that raises a fault without touching its continuation. -/
def raiserStep (δ : Type) (i : Nat) (e : Fault) : Step δ :=
  ⟨i, fun _ => SProg.raiseF e⟩

/-- A step that completes without raising and without invoking its
continuation (its execution is recorded by its `stepExec` event). -/
def recorderStep (δ : Type) (i : Nat) : Step δ :=
  ⟨i, fun _ => SProg.done⟩

/-- A step whose body never calls `pipeline.append`. -/
def Step.noApp {δ : Type} (s : Step δ) : Prop :=
  ∀ d, noAppendP (s.body d) = true

/-- A step that forwards the data context unchanged: its body is exactly
one continuation call with the received value. -/
def IsPass {δ : Type} (t : Step δ) : Prop :=
  t.body = fun d => SProg.call d SProg.done

/-- Client actions on a pipeline after construction: `pipeline.append(s)`
or an invocation `pipeline(d, h)`. -/
inductive PAct (δ : Type) where
  | app : Step δ → PAct δ
  | inv : δ → Option (Handler δ) → PAct δ

/-- Run a sequence of client actions, threading the live step list: an
append extends it, an invocation leaves behind whatever list the run
produced. -/
def runActs {δ : Type} : Pipeline δ → List (PAct δ) → Pipeline δ
  | p, [] => p
  | p, PAct.app s :: as => runActs (p.append s) as
  | p, PAct.inv d hOpt :: as => runActs ⟨(p.call d hOpt).pq⟩ as

/-- Number of append actions in a client action sequence. -/
def countApp {δ : Type} : List (PAct δ) → Nat
  | [] => 0
  | PAct.app _ :: as => countApp as + 1
  | PAct.inv _ _ :: as => countApp as

/-- An action whose step (if it appends one) never itself appends. -/
def actNoApp {δ : Type} : PAct δ → Prop
  | PAct.app s => s.noApp
  | PAct.inv _ _ => True

/-- A fault of an `Exception`-derived class. -/
def boomFault : Fault := ⟨7, true⟩

/-- A fault of a `BaseException` class outside `Exception`, such as
`SystemExit` or `KeyboardInterrupt`. -/
def exitFault : Fault := ⟨9, false⟩

/-- A handler that resumes: it calls its continuation argument with the
data context and then returns: `handler(e, ctx, next): next(ctx)`. -/
def resumeHandler : Handler Nat := fun _ d _ => HProg.hcall d HProg.hdone

/-- A handler that swallows every fault: it returns normally. -/
def swallowHandler : Handler Nat := fun _ _ _ => HProg.hdone

/-- A handler that re-raises when the continuation it receives has an
empty queue and resumes otherwise (a Python handler can read
`next_step.queue`). -/
def levelHandler : Handler Nat := fun e d rest =>
  if rest.isEmpty then HProg.hraise e else HProg.hcall d HProg.hdone

/-- Pipeline `[raises(boom), recorder]` over `Nat` data contexts. -/
def resumePipeline : Pipeline Nat :=
  ⟨[raiserStep Nat 0 boomFault, recorderStep Nat 1]⟩

/-- Pipeline `[s0, s1]` where `s0` invokes its continuation and `s1`
raises. -/
def reraisePipeline : Pipeline Nat :=
  ⟨[passStep Nat 0, raiserStep Nat 1 boomFault]⟩

/-- A step (closed over the pipeline object) that appends a fresh step to
the pipeline during its own execution. -/
def appenderStep : Step Nat :=
  ⟨0, fun _ => SProg.appendPipe 1 (fun _ => SProg.done) SProg.done⟩

/-- A one-step pipeline whose single step appends another step mid-run. -/
def appendingPipeline : Pipeline Nat := ⟨[appenderStep]⟩

theorem execIds_append {δ : Type} (l1 l2 : List (Ev δ)) :
    execIds (l1 ++ l2) = execIds l1 ++ execIds l2 := by
  induction l1 with
  | nil => rfl
  | cons e t ih => cases e <;> simp [execIds, ih]

theorem runS_call_ok {δ : Type} (next : δ → List (Step δ) → Res δ) (d : δ)
    (k : SProg δ) (pq : List (Step δ)) (ho : (next d pq).out = Outcome.ok) :
    runS next (SProg.call d k) pq =
      ⟨(next d pq).log ++ (runS next k (next d pq).pq).log,
        (runS next k (next d pq).pq).out, (runS next k (next d pq).pq).pq⟩ := by
  simp only [runS]
  rw [ho]

theorem runS_call_fault {δ : Type} (next : δ → List (Step δ) → Res δ) (d : δ)
    (k : SProg δ) (pq : List (Step δ)) (e : Fault)
    (ho : (next d pq).out = Outcome.fault e) :
    runS next (SProg.call d k) pq =
      ⟨(next d pq).log, Outcome.fault e, (next d pq).pq⟩ := by
  simp only [runS]
  rw [ho]

theorem runH_call_ok {δ : Type} (next : δ → List (Step δ) → Res δ) (d : δ)
    (k : HProg δ) (pq : List (Step δ)) (ho : (next d pq).out = Outcome.ok) :
    runH next (HProg.hcall d k) pq =
      ⟨(next d pq).log ++ (runH next k (next d pq).pq).log,
        (runH next k (next d pq).pq).out, (runH next k (next d pq).pq).pq⟩ := by
  simp only [runH]
  rw [ho]

theorem runH_call_fault {δ : Type} (next : δ → List (Step δ) → Res δ) (d : δ)
    (k : HProg δ) (pq : List (Step δ)) (e : Fault)
    (ho : (next d pq).out = Outcome.fault e) :
    runH next (HProg.hcall d k) pq =
      ⟨(next d pq).log, Outcome.fault e, (next d pq).pq⟩ := by
  simp only [runH]
  rw [ho]

theorem cursorCall_cons_ok {δ : Type} (h : Handler δ) (s : Step δ)
    (rest : List (Step δ)) (d : δ) (pq : List (Step δ))
    (ho : (runS (cursorCall h rest) (s.body d) pq).out = Outcome.ok) :
    cursorCall h (s :: rest) d pq =
      ⟨Ev.stepExec s.id d :: (runS (cursorCall h rest) (s.body d) pq).log,
        Outcome.ok, (runS (cursorCall h rest) (s.body d) pq).pq⟩ := by
  simp only [cursorCall]
  rw [ho]

theorem cursorCall_cons_exn {δ : Type} (h : Handler δ) (s : Step δ)
    (rest : List (Step δ)) (d : δ) (pq : List (Step δ)) (e : Fault)
    (ho : (runS (cursorCall h rest) (s.body d) pq).out = Outcome.fault e)
    (he : e.isException = true) :
    cursorCall h (s :: rest) d pq =
      ⟨Ev.stepExec s.id d ::
          ((runS (cursorCall h rest) (s.body d) pq).log ++
            Ev.handlerCall e d (rest.map Step.id) ::
              (runH (cursorCall h rest) (h e d (rest.map Step.id))
                (runS (cursorCall h rest) (s.body d) pq).pq).log),
        (runH (cursorCall h rest) (h e d (rest.map Step.id))
          (runS (cursorCall h rest) (s.body d) pq).pq).out,
        (runH (cursorCall h rest) (h e d (rest.map Step.id))
          (runS (cursorCall h rest) (s.body d) pq).pq).pq⟩ := by
  simp only [cursorCall]
  rw [ho]
  dsimp only
  rw [he]
  simp

theorem cursorCall_cons_base {δ : Type} (h : Handler δ) (s : Step δ)
    (rest : List (Step δ)) (d : δ) (pq : List (Step δ)) (e : Fault)
    (ho : (runS (cursorCall h rest) (s.body d) pq).out = Outcome.fault e)
    (he : e.isException = false) :
    cursorCall h (s :: rest) d pq =
      ⟨Ev.stepExec s.id d :: (runS (cursorCall h rest) (s.body d) pq).log,
        Outcome.fault e, (runS (cursorCall h rest) (s.body d) pq).pq⟩ := by
  simp only [cursorCall]
  rw [ho]
  dsimp only
  rw [he]
  simp

theorem sOut_ok_of_tame {δ : Type} (p : SProg δ) (hnc : noCallP p = true)
    (ht : tameP p = true) : sOut p = Outcome.ok := by
  induction p with
  | done => rfl
  | raiseF e => simp [tameP] at ht
  | call d k ihk => simp [noCallP] at hnc
  | appendPipe i b k ihb ihk => exact ihk hnc ht

theorem runS_noCall {δ : Type} (next : δ → List (Step δ) → Res δ)
    (p : SProg δ) (hnc : noCallP p = true) :
    ∀ pq, (runS next p pq).log = [] ∧ (runS next p pq).out = sOut p := by
  induction p with
  | done => intro pq; exact ⟨rfl, rfl⟩
  | raiseF e => intro pq; exact ⟨rfl, rfl⟩
  | call d k ihk => simp [noCallP] at hnc
  | appendPipe i b k ihb ihk => intro pq; exact ihk hnc (pq ++ [⟨i, b⟩])

theorem runS_execIds {δ : Type} (next : δ → List (Step δ) → Res δ)
    (S : List Nat)
    (hn : ∀ d pq j, j ∈ execIds (next d pq).log → j ∈ S) (p : SProg δ) :
    ∀ pq j, j ∈ execIds (runS next p pq).log → j ∈ S := by
  induction p with
  | done => intro pq j hj; simp [runS, execIds] at hj
  | raiseF e => intro pq j hj; simp [runS, execIds] at hj
  | call d k ihk =>
      intro pq j hj
      cases ho : (next d pq).out with
      | ok =>
          rw [runS_call_ok next d k pq ho] at hj
          dsimp only at hj
          rw [execIds_append] at hj
          rcases List.mem_append.mp hj with hj1 | hj2
          · exact hn d pq j hj1
          · exact ihk _ j hj2
      | fault e =>
          rw [runS_call_fault next d k pq e ho] at hj
          exact hn d pq j hj
  | appendPipe i b k ihb ihk =>
      intro pq j hj
      exact ihk _ j hj

theorem runH_execIds {δ : Type} (next : δ → List (Step δ) → Res δ)
    (S : List Nat)
    (hn : ∀ d pq j, j ∈ execIds (next d pq).log → j ∈ S) (p : HProg δ) :
    ∀ pq j, j ∈ execIds (runH next p pq).log → j ∈ S := by
  induction p with
  | hdone => intro pq j hj; simp [runH, execIds] at hj
  | hraise e => intro pq j hj; simp [runH, execIds] at hj
  | hcall d k ihk =>
      intro pq j hj
      cases ho : (next d pq).out with
      | ok =>
          rw [runH_call_ok next d k pq ho] at hj
          dsimp only at hj
          rw [execIds_append] at hj
          rcases List.mem_append.mp hj with hj1 | hj2
          · exact hn d pq j hj1
          · exact ihk _ j hj2
      | fault e =>
          rw [runH_call_fault next d k pq e ho] at hj
          exact hn d pq j hj

theorem cursorCall_execIds {δ : Type} (h : Handler δ) :
    ∀ (q : List (Step δ)) (d : δ) (pq : List (Step δ)) (j : Nat),
      j ∈ execIds (cursorCall h q d pq).log → j ∈ q.map Step.id := by
  intro q
  induction q with
  | nil => intro d pq j hj; simp [cursorCall, execIds] at hj
  | cons s rest ih =>
      intro d pq j hj
      have hbody := runS_execIds (cursorCall h rest) (rest.map Step.id)
        (fun d2 pq2 j2 hj2 => ih d2 pq2 j2 hj2) (s.body d) pq
      rw [List.map_cons]
      cases ho : (runS (cursorCall h rest) (s.body d) pq).out with
      | ok =>
          rw [cursorCall_cons_ok h s rest d pq ho] at hj
          dsimp only at hj
          simp only [execIds, List.mem_cons] at hj
          rcases hj with rfl | hj
          · exact List.mem_cons_self _ _
          · exact List.mem_cons_of_mem _ (hbody j hj)
      | fault e =>
          cases he : e.isException with
          | true =>
              rw [cursorCall_cons_exn h s rest d pq e ho he] at hj
              dsimp only at hj
              simp only [execIds, execIds_append, List.mem_cons,
                List.mem_append] at hj
              rcases hj with rfl | hj | hj
              · exact List.mem_cons_self _ _
              · exact List.mem_cons_of_mem _ (hbody j hj)
              · exact List.mem_cons_of_mem _
                  (runH_execIds (cursorCall h rest) (rest.map Step.id)
                    (fun d2 pq2 j2 hj2 => ih d2 pq2 j2 hj2) _ _ j hj)
          | false =>
              rw [cursorCall_cons_base h s rest d pq e ho he] at hj
              dsimp only at hj
              simp only [execIds, List.mem_cons] at hj
              rcases hj with rfl | hj
              · exact List.mem_cons_self _ _
              · exact List.mem_cons_of_mem _ (hbody j hj)

theorem runS_frame {δ : Type} (next : δ → List (Step δ) → Res δ)
    (hn : ∀ d pq pq2, (next d pq).log = (next d pq2).log ∧
      (next d pq).out = (next d pq2).out) (p : SProg δ) :
    ∀ pq pq2, (runS next p pq).log = (runS next p pq2).log ∧
      (runS next p pq).out = (runS next p pq2).out := by
  induction p with
  | done => intro pq pq2; exact ⟨rfl, rfl⟩
  | raiseF e => intro pq pq2; exact ⟨rfl, rfl⟩
  | call d k ihk =>
      intro pq pq2
      obtain ⟨hl, hout⟩ := hn d pq pq2
      cases ho : (next d pq).out with
      | ok =>
          have ho2 : (next d pq2).out = Outcome.ok := by rw [← hout, ho]
          rw [runS_call_ok next d k pq ho, runS_call_ok next d k pq2 ho2]
          obtain ⟨hl2, hout2⟩ := ihk (next d pq).pq (next d pq2).pq
          exact ⟨by dsimp only; rw [hl, hl2], by dsimp only; rw [hout2]⟩
      | fault e =>
          have ho2 : (next d pq2).out = Outcome.fault e := by rw [← hout, ho]
          rw [runS_call_fault next d k pq e ho,
            runS_call_fault next d k pq2 e ho2]
          exact ⟨by dsimp only; rw [hl], rfl⟩
  | appendPipe i b k ihb ihk => intro pq pq2; exact ihk _ _

theorem runH_frame {δ : Type} (next : δ → List (Step δ) → Res δ)
    (hn : ∀ d pq pq2, (next d pq).log = (next d pq2).log ∧
      (next d pq).out = (next d pq2).out) (p : HProg δ) :
    ∀ pq pq2, (runH next p pq).log = (runH next p pq2).log ∧
      (runH next p pq).out = (runH next p pq2).out := by
  induction p with
  | hdone => intro pq pq2; exact ⟨rfl, rfl⟩
  | hraise e => intro pq pq2; exact ⟨rfl, rfl⟩
  | hcall d k ihk =>
      intro pq pq2
      obtain ⟨hl, hout⟩ := hn d pq pq2
      cases ho : (next d pq).out with
      | ok =>
          have ho2 : (next d pq2).out = Outcome.ok := by rw [← hout, ho]
          rw [runH_call_ok next d k pq ho, runH_call_ok next d k pq2 ho2]
          obtain ⟨hl2, hout2⟩ := ihk (next d pq).pq (next d pq2).pq
          exact ⟨by dsimp only; rw [hl, hl2], by dsimp only; rw [hout2]⟩
      | fault e =>
          have ho2 : (next d pq2).out = Outcome.fault e := by rw [← hout, ho]
          rw [runH_call_fault next d k pq e ho,
            runH_call_fault next d k pq2 e ho2]
          exact ⟨by dsimp only; rw [hl], rfl⟩

theorem cursorCall_frame {δ : Type} (h : Handler δ) :
    ∀ (q : List (Step δ)) (d : δ) (pq pq2 : List (Step δ)),
      (cursorCall h q d pq).log = (cursorCall h q d pq2).log ∧
      (cursorCall h q d pq).out = (cursorCall h q d pq2).out := by
  intro q
  induction q with
  | nil => intro d pq pq2; exact ⟨rfl, rfl⟩
  | cons s rest ih =>
      intro d pq pq2
      obtain ⟨hl, hout⟩ := runS_frame (cursorCall h rest) ih (s.body d) pq pq2
      cases ho : (runS (cursorCall h rest) (s.body d) pq).out with
      | ok =>
          have ho2 : (runS (cursorCall h rest) (s.body d) pq2).out =
              Outcome.ok := by rw [← hout, ho]
          rw [cursorCall_cons_ok h s rest d pq ho,
            cursorCall_cons_ok h s rest d pq2 ho2]
          exact ⟨by dsimp only; rw [hl], rfl⟩
      | fault e =>
          have ho2 : (runS (cursorCall h rest) (s.body d) pq2).out =
              Outcome.fault e := by rw [← hout, ho]
          cases he : e.isException with
          | true =>
              rw [cursorCall_cons_exn h s rest d pq e ho he,
                cursorCall_cons_exn h s rest d pq2 e ho2 he]
              obtain ⟨hhl, hhout⟩ := runH_frame (cursorCall h rest) ih
                (h e d (rest.map Step.id))
                (runS (cursorCall h rest) (s.body d) pq).pq
                (runS (cursorCall h rest) (s.body d) pq2).pq
              exact ⟨by dsimp only; rw [hl, hhl], by dsimp only; rw [hhout]⟩
          | false =>
              rw [cursorCall_cons_base h s rest d pq e ho he,
                cursorCall_cons_base h s rest d pq2 e ho2 he]
              exact ⟨by dsimp only; rw [hl], rfl⟩

theorem runS_pq {δ : Type} (next : δ → List (Step δ) → Res δ)
    (hn : ∀ d pq, (next d pq).pq = pq) (p : SProg δ)
    (hp : noAppendP p = true) :
    ∀ pq, (runS next p pq).pq = pq := by
  induction p with
  | done => intro pq; rfl
  | raiseF e => intro pq; rfl
  | call d k ihk =>
      intro pq
      cases ho : (next d pq).out with
      | ok =>
          rw [runS_call_ok next d k pq ho]
          dsimp only
          rw [ihk hp ((next d pq).pq), hn d pq]
      | fault e =>
          rw [runS_call_fault next d k pq e ho]
          exact hn d pq
  | appendPipe i b k ihb ihk => simp [noAppendP] at hp

theorem runH_pq {δ : Type} (next : δ → List (Step δ) → Res δ)
    (hn : ∀ d pq, (next d pq).pq = pq) (p : HProg δ) :
    ∀ pq, (runH next p pq).pq = pq := by
  induction p with
  | hdone => intro pq; rfl
  | hraise e => intro pq; rfl
  | hcall d k ihk =>
      intro pq
      cases ho : (next d pq).out with
      | ok =>
          rw [runH_call_ok next d k pq ho]
          dsimp only
          rw [ihk ((next d pq).pq), hn d pq]
      | fault e =>
          rw [runH_call_fault next d k pq e ho]
          exact hn d pq

theorem cursorCall_pq {δ : Type} (h : Handler δ) :
    ∀ (q : List (Step δ)), (∀ t ∈ q, t.noApp) →
      ∀ d pq, (cursorCall h q d pq).pq = pq := by
  intro q
  induction q with
  | nil => intro _ d pq; rfl
  | cons s rest ih =>
      intro hq d pq
      have hnext : ∀ d2 pq2, (cursorCall h rest d2 pq2).pq = pq2 :=
        ih (fun t ht => hq t (List.mem_cons_of_mem s ht))
      have hs := hq s (List.mem_cons_self s rest)
      cases ho : (runS (cursorCall h rest) (s.body d) pq).out with
      | ok =>
          rw [cursorCall_cons_ok h s rest d pq ho]
          exact runS_pq _ hnext _ (hs d) pq
      | fault e =>
          cases he : e.isException with
          | true =>
              rw [cursorCall_cons_exn h s rest d pq e ho he]
              dsimp only
              rw [runH_pq _ hnext _ _]
              exact runS_pq _ hnext _ (hs d) pq
          | false =>
              rw [cursorCall_cons_base h s rest d pq e ho he]
              exact runS_pq _ hnext _ (hs d) pq

theorem cursorCall_passChain {δ : Type} (h : Handler δ) :
    ∀ (q : List (Step δ)), (∀ t ∈ q, IsPass t) → ∀ d pq,
      cursorCall h q d pq =
        ⟨q.map (fun t => Ev.stepExec t.id d), Outcome.ok, pq⟩ := by
  intro q
  induction q with
  | nil => intro _ d pq; rfl
  | cons s rest ih =>
      intro hq d pq
      have hrest : ∀ t ∈ rest, IsPass t :=
        fun t ht => hq t (List.mem_cons_of_mem s ht)
      have hs : s.body = fun d2 => SProg.call d2 SProg.done :=
        hq s (List.mem_cons_self s rest)
      have hbody : runS (cursorCall h rest) (s.body d) pq =
          ⟨rest.map (fun t => Ev.stepExec t.id d), Outcome.ok, pq⟩ := by
        simp only [hs]
        rw [runS_call_ok (cursorCall h rest) d SProg.done pq
          (by rw [ih hrest d pq])]
        rw [ih hrest d pq]
        simp [runS]
      rw [cursorCall_cons_ok h s rest d pq (by rw [hbody])]
      rw [hbody]
      simp

theorem runS_tame {δ : Type} (next : δ → List (Step δ) → Res δ)
    (S : List Nat)
    (hn : ∀ d pq, (next d pq).out = Outcome.ok ∧
      ∀ j, j ∈ execIds (next d pq).log → j ∈ S)
    (p : SProg δ) (hp : tameP p = true) :
    ∀ pq, (runS next p pq).out = Outcome.ok ∧
      ∀ j, j ∈ execIds (runS next p pq).log → j ∈ S := by
  induction p with
  | done =>
      intro pq
      exact ⟨rfl, by intro j hj; simp [runS, execIds] at hj⟩
  | raiseF e => simp [tameP] at hp
  | call d k ihk =>
      intro pq
      obtain ⟨ho, hl⟩ := hn d pq
      rw [runS_call_ok next d k pq ho]
      obtain ⟨ho2, hl2⟩ := ihk hp ((next d pq).pq)
      refine ⟨ho2, ?_⟩
      dsimp only
      intro j hj
      rw [execIds_append] at hj
      rcases List.mem_append.mp hj with hj1 | hj2
      · exact hl j hj1
      · exact hl2 j hj2
  | appendPipe i b k ihb ihk => intro pq; exact ihk hp _

theorem cursorCall_cons_shape {δ : Type} (h : Handler δ) (s : Step δ)
    (rest : List (Step δ)) (d : δ) (pq : List (Step δ)) :
    ∃ t, (cursorCall h (s :: rest) d pq).log = Ev.stepExec s.id d :: t ∧
      ∀ j, j ∈ execIds t → j ∈ rest.map Step.id := by
  have hbody := runS_execIds (cursorCall h rest) (rest.map Step.id)
    (fun d2 pq2 j2 hj2 => cursorCall_execIds h rest d2 pq2 j2 hj2)
    (s.body d) pq
  cases ho : (runS (cursorCall h rest) (s.body d) pq).out with
  | ok =>
      refine ⟨(runS (cursorCall h rest) (s.body d) pq).log,
        by rw [cursorCall_cons_ok h s rest d pq ho], ?_⟩
      exact hbody
  | fault e =>
      cases he : e.isException with
      | true =>
          refine ⟨(runS (cursorCall h rest) (s.body d) pq).log ++
              Ev.handlerCall e d (rest.map Step.id) ::
                (runH (cursorCall h rest) (h e d (rest.map Step.id))
                  (runS (cursorCall h rest) (s.body d) pq).pq).log,
            by rw [cursorCall_cons_exn h s rest d pq e ho he], ?_⟩
          intro j hj
          simp only [execIds_append, execIds, List.mem_append] at hj
          rcases hj with hj | hj
          · exact hbody j hj
          · exact runH_execIds (cursorCall h rest) (rest.map Step.id)
              (fun d2 pq2 j2 hj2 => cursorCall_execIds h rest d2 pq2 j2 hj2)
              _ _ j hj
      | false =>
          refine ⟨(runS (cursorCall h rest) (s.body d) pq).log,
            by rw [cursorCall_cons_base h s rest d pq e ho he], ?_⟩
          exact hbody

/-- Claim C1 (suffix and continuation invariant): for a pipeline over steps
`l`, the cursor executing `s_i` holds the suffix `l.drop i`, whose head is
`s_i` and whose tail slice — the continuation cursor it constructs — is
`l.drop (i+1)`; invoking the cursor over `l.drop i` executes exactly the
head `s_i` (the trace starts with its `stepExec` event and every other
executed step id comes from `l.drop (i+1)`, reached only through the
continuation); and the continuation, when invoked, executes exactly
`s_{i+1}` as its head and constructs a continuation over `l.drop (i+2)`. -/
theorem suffix_invariant {δ : Type} (l : List (Step δ)) (h : Handler δ)
    (i : Nat) (hi : i < l.length) :
    l.drop i = l.get ⟨i, hi⟩ :: l.drop (i + 1) ∧
    (∀ d pq, (cursorCall h (l.drop i) d pq).log.head? =
        some (Ev.stepExec (l.get ⟨i, hi⟩).id d) ∧
      ∀ j, j ∈ execIds (cursorCall h (l.drop i) d pq).log.tail →
        j ∈ (l.drop (i + 1)).map Step.id) ∧
    ∀ h2 : i + 1 < l.length,
      l.drop (i + 1) = l.get ⟨i + 1, h2⟩ :: l.drop (i + 2) ∧
      ∀ d pq, (cursorCall h (l.drop (i + 1)) d pq).log.head? =
        some (Ev.stepExec (l.get ⟨i + 1, h2⟩).id d) := by
  have hd : l.drop i = l.get ⟨i, hi⟩ :: l.drop (i + 1) :=
    List.drop_eq_getElem_cons hi
  refine ⟨hd, ?_, ?_⟩
  · intro d pq
    obtain ⟨t, hlog, hids⟩ :=
      cursorCall_cons_shape h (l.get ⟨i, hi⟩) (l.drop (i + 1)) d pq
    rw [hd, hlog]
    exact ⟨rfl, hids⟩
  · intro h2
    have hd2 : l.drop (i + 1) = l.get ⟨i + 1, h2⟩ :: l.drop (i + 2) :=
      List.drop_eq_getElem_cons h2
    refine ⟨hd2, ?_⟩
    intro d pq
    obtain ⟨t, hlog, _⟩ :=
      cursorCall_cons_shape h (l.get ⟨i + 1, h2⟩) (l.drop (i + 2)) d pq
    rw [hd2, hlog]
    rfl

/-- Witness for C1 at the pipeline `[pass 0, recorder 1]`, index 0. -/
theorem suffix_invariant_witness :
    (cursorCall (defaultErrorHandler Nat)
        (([passStep Nat 0, recorderStep Nat 1] : List (Step Nat)).drop 0)
        5 []).log.head? = some (Ev.stepExec 0 5) :=
  ((suffix_invariant [passStep Nat 0, recorderStep Nat 1]
      (defaultErrorHandler Nat) 0 (by decide)).2.1 5 []).1

/-- Claim C2 (default propagation): if the first step raises a fault `E`
without having invoked its continuation, invoking the pipeline with no
custom error handler propagates exactly `E` out of the invocation, and the
only step that executed is the raising step — no step after it runs. -/
theorem default_propagation {δ : Type} (s : Step δ) (rest : List (Step δ))
    (d : δ) (E : Fault)
    (hnc : noCallP (s.body d) = true)
    (hout : sOut (s.body d) = Outcome.fault E) :
    (Pipeline.call ⟨s :: rest⟩ d none).out = Outcome.fault E ∧
    execIds (Pipeline.call ⟨s :: rest⟩ d none).log = [s.id] := by
  show (cursorCall (defaultErrorHandler δ) (s :: rest) d (s :: rest)).out =
      Outcome.fault E ∧
    execIds
      (cursorCall (defaultErrorHandler δ) (s :: rest) d (s :: rest)).log =
      [s.id]
  obtain ⟨hlog, hso⟩ := runS_noCall (cursorCall (defaultErrorHandler δ) rest)
    (s.body d) hnc (s :: rest)
  rw [hout] at hso
  cases he : E.isException with
  | true =>
      rw [cursorCall_cons_exn (defaultErrorHandler δ) s rest d (s :: rest) E
        hso he]
      refine ⟨rfl, ?_⟩
      dsimp only
      rw [hlog]
      simp [defaultErrorHandler, runH, execIds]
  | false =>
      rw [cursorCall_cons_base (defaultErrorHandler δ) s rest d (s :: rest) E
        hso he]
      refine ⟨rfl, ?_⟩
      dsimp only
      rw [hlog]
      rfl

/-- Witness for C2: `[raises(boom), recorder]` with the default handler. -/
theorem default_propagation_witness :
    (Pipeline.call ⟨[raiserStep Nat 0 boomFault, recorderStep Nat 1]⟩ 5
        none).out = Outcome.fault boomFault ∧
    execIds (Pipeline.call ⟨[raiserStep Nat 0 boomFault, recorderStep Nat 1]⟩
        5 none).log = [0] :=
  default_propagation (raiserStep Nat 0 boomFault) [recorderStep Nat 1] 5
    boomFault rfl rfl

/-- Claim C3 (handler resume): invoking `[raises(boom), recorder]` with a
handler that calls its continuation argument with the data context makes
the fault reach the handler (with the continuation over `[recorder]`),
then the recorder executes, and the invocation returns normally — no fault
escapes. -/
theorem handler_resume :
    (resumePipeline.call 5 (some resumeHandler)).log =
      [Ev.stepExec 0 5, Ev.handlerCall boomFault 5 [1], Ev.stepExec 1 5] ∧
    (resumePipeline.call 5 (some resumeHandler)).out = Outcome.ok :=
  ⟨rfl, rfl⟩

/-- Claim C4, counterexample: `Pipeline.__call__` passes `self.queue` to
the root cursor without copying, so the root cursor is not over a
snapshot: after the single step of `appendingPipeline` appends a step
mid-run, the live list — and with it the queue stored by the root cursor
already constructed for that run — has two steps, while the step list at
the start of the invocation had one. -/
theorem snapshot_counterexample :
    (appendingPipeline.call 0 none).pq.length = 2 ∧
    (derefQ (appendingPipeline.call 0 none).pq
        (appendingPipeline.rootCursor none).qref).length ≠
      appendingPipeline.queue.length := by
  decide

/-- Claim C4, amended: the root cursor aliases the live step list rather
than holding a snapshot, but the guarantees the claim is after still hold:
the trace and outcome of a cursor run are independent of the live list (so
an append during a run never changes which steps that run executes — the
appended step is seen only by invocations started after the append), and
`invoke` itself never mutates the step list (with steps that do not call
`append`, the list after an invocation is exactly the list before). -/
theorem snapshot_amended {δ : Type} :
    (∀ (h : Handler δ) (q : List (Step δ)) (d : δ) (pq pq2 : List (Step δ)),
      (cursorCall h q d pq).log = (cursorCall h q d pq2).log ∧
      (cursorCall h q d pq).out = (cursorCall h q d pq2).out) ∧
    ∀ (p : Pipeline δ) (d : δ) (hOpt : Option (Handler δ)),
      (∀ t ∈ p.queue, t.noApp) → (p.call d hOpt).pq = p.queue :=
  ⟨fun h q d pq pq2 => cursorCall_frame h q d pq pq2,
    fun p d hOpt hna =>
      cursorCall_pq (hOpt.getD (defaultErrorHandler δ)) p.queue hna d p.queue⟩

/-- Witness for the amended C4. -/
theorem snapshot_amended_witness :
    ((cursorCall (defaultErrorHandler Nat) [recorderStep Nat 0] 5 []).log =
      (cursorCall (defaultErrorHandler Nat) [recorderStep Nat 0] 5
        [recorderStep Nat 9]).log) ∧
    (Pipeline.call ⟨[recorderStep Nat 0]⟩ 5 none).pq =
      [recorderStep Nat 0] :=
  ⟨(snapshot_amended.1 (defaultErrorHandler Nat) [recorderStep Nat 0] 5 []
      [recorderStep Nat 9]).1,
    snapshot_amended.2 ⟨[recorderStep Nat 0]⟩ 5 none
      (by intro t ht; rw [List.mem_singleton] at ht; subst ht;
          exact fun d => rfl)⟩

/-- Claim C5 (short-circuit): if step `s_i` completes without raising and
never invokes the continuation it was given, then no step after `s_i`
executes during that invocation (all executed step ids come from the steps
up to and including `s_i`) and the invocation returns normally — here with
the steps before `s_i` assumed not to raise, as the claim presumes a run
that reaches `s_i` normally. -/
theorem short_circuit {δ : Type} (h : Handler δ) (l1 : List (Step δ))
    (s : Step δ) (l2 : List (Step δ)) (d : δ) (pq : List (Step δ))
    (hs : ∀ d2, noCallP (s.body d2) = true ∧ tameP (s.body d2) = true)
    (hl1 : ∀ t ∈ l1, ∀ d2, tameP (t.body d2) = true) :
    (cursorCall h (l1 ++ s :: l2) d pq).out = Outcome.ok ∧
    ∀ j, j ∈ execIds (cursorCall h (l1 ++ s :: l2) d pq).log →
      j ∈ (l1 ++ [s]).map Step.id := by
  induction l1 generalizing d pq with
  | nil =>
      obtain ⟨hnc, ht⟩ := hs d
      obtain ⟨hlog, hso⟩ := runS_noCall (cursorCall h l2) (s.body d) hnc pq
      have hok : (runS (cursorCall h l2) (s.body d) pq).out = Outcome.ok := by
        rw [hso]
        exact sOut_ok_of_tame _ hnc ht
      rw [List.nil_append, cursorCall_cons_ok h s l2 d pq hok]
      refine ⟨rfl, ?_⟩
      dsimp only
      rw [hlog]
      intro j hj
      simp only [execIds, List.mem_cons] at hj
      rcases hj with rfl | hj
      · simp
      · cases hj
  | cons t l1 ih =>
      have hl1r : ∀ u ∈ l1, ∀ d2, tameP (u.body d2) = true :=
        fun u hu => hl1 u (List.mem_cons_of_mem t hu)
      have hnext2 : ∀ d2 pq2,
          (cursorCall h (l1 ++ s :: l2) d2 pq2).out = Outcome.ok ∧
          ∀ j, j ∈ execIds (cursorCall h (l1 ++ s :: l2) d2 pq2).log →
            j ∈ ((t :: l1) ++ [s]).map Step.id := by
        intro d2 pq2
        obtain ⟨h1, h2⟩ := ih d2 pq2 hl1r
        exact ⟨h1, fun j hj => List.mem_cons_of_mem _ (h2 j hj)⟩
      obtain ⟨hto, htl⟩ := runS_tame (cursorCall h (l1 ++ s :: l2))
        (((t :: l1) ++ [s]).map Step.id) hnext2 (t.body d)
        (hl1 t (List.mem_cons_self t l1) d) pq
      rw [List.cons_append, cursorCall_cons_ok h t (l1 ++ s :: l2) d pq hto]
      refine ⟨rfl, ?_⟩
      dsimp only
      intro j hj
      simp only [execIds, List.mem_cons] at hj
      rcases hj with rfl | hj
      · simp
      · exact htl j hj

/-- Witness for C5: `[pass 0, recorder 1, raises 2]` — the recorder never
calls its continuation, so the raiser after it never runs and the
invocation returns normally. -/
theorem short_circuit_witness :
    (cursorCall (defaultErrorHandler Nat)
        ([passStep Nat 0] ++ recorderStep Nat 1 ::
          [raiserStep Nat 2 boomFault]) 5 []).out = Outcome.ok ∧
    ∀ j, j ∈ execIds (cursorCall (defaultErrorHandler Nat)
        ([passStep Nat 0] ++ recorderStep Nat 1 ::
          [raiserStep Nat 2 boomFault]) 5 []).log →
      j ∈ ([passStep Nat 0] ++ [recorderStep Nat 1]).map Step.id :=
  short_circuit (defaultErrorHandler Nat) [passStep Nat 0]
    (recorderStep Nat 1) [raiserStep Nat 2 boomFault] 5 []
    (fun d2 => ⟨rfl, rfl⟩)
    (by intro t ht d2; rw [List.mem_singleton] at ht; subst ht; rfl)

/-- Claim C6 (fan-out): a step that invokes its continuation twice, with
data values `d1` and then `d2`, makes every step after it execute twice —
once per branch, each downstream step seeing the data value of its branch
— and the invocation completes normally; each continuation invocation
independently executes the same tail. -/
theorem fan_out {δ : Type} (h : Handler δ) (sid : Nat) (d d1 d2 : δ)
    (rest : List (Step δ)) (pq : List (Step δ))
    (hrest : ∀ t ∈ rest, IsPass t) :
    cursorCall h
        ((⟨sid, fun _ => SProg.call d1 (SProg.call d2 SProg.done)⟩ : Step δ)
          :: rest) d pq =
      ⟨Ev.stepExec sid d ::
          (rest.map (fun t => Ev.stepExec t.id d1) ++
            rest.map (fun t => Ev.stepExec t.id d2)),
        Outcome.ok, pq⟩ := by
  have h1 := cursorCall_passChain h rest hrest d1 pq
  have h2 := cursorCall_passChain h rest hrest d2 pq
  have hbody : runS (cursorCall h rest)
      (SProg.call d1 (SProg.call d2 SProg.done)) pq =
      ⟨rest.map (fun t => Ev.stepExec t.id d1) ++
        rest.map (fun t => Ev.stepExec t.id d2), Outcome.ok, pq⟩ := by
    rw [runS_call_ok (cursorCall h rest) d1 _ pq (by rw [h1])]
    rw [h1]
    dsimp only
    rw [runS_call_ok (cursorCall h rest) d2 _ pq (by rw [h2])]
    rw [h2]
    simp [runS]
  rw [cursorCall_cons_ok h _ rest d pq (by dsimp only; rw [hbody])]
  dsimp only
  rw [hbody]

/-- Witness for C6: fan-out over the single downstream step `pass 7`. -/
theorem fan_out_witness :
    cursorCall (defaultErrorHandler Nat)
        ((⟨0, fun _ => SProg.call 1 (SProg.call 2 SProg.done)⟩ : Step Nat)
          :: [passStep Nat 7]) 9 [] =
      ⟨Ev.stepExec 0 9 :: ([Ev.stepExec 7 1] ++ [Ev.stepExec 7 2]),
        Outcome.ok, []⟩ :=
  fan_out (defaultErrorHandler Nat) 0 9 1 2 [passStep Nat 7] []
    (by intro t ht; rw [List.mem_singleton] at ht; subst ht; rfl)

/-- Claim C7 (empty pipeline is a no-op): a cursor whose remaining-step
list is empty is terminal — invoking it with any data context executes no
step, raises nothing, and leaves the live list unchanged — and invoking a
pipeline with an empty step list behaves the same. -/
theorem empty_noop {δ : Type} (h : Handler δ) (d : δ) (pq : List (Step δ))
    (hOpt : Option (Handler δ)) :
    cursorCall h [] d pq = ⟨[], Outcome.ok, pq⟩ ∧
    Pipeline.call (⟨[]⟩ : Pipeline δ) d hOpt = ⟨[], Outcome.ok, []⟩ :=
  ⟨rfl, rfl⟩

/-- Claim C8 (length invariant): after constructing a pipeline from an
initial step list and running any sequence of appends and invocations
(whose steps do not themselves call `append`), `length()` equals the
number of steps supplied at construction plus the number of appends —
invocations in between do not change it. -/
theorem length_invariant {δ : Type} (init : List (Step δ))
    (acts : List (PAct δ))
    (hinit : ∀ t ∈ init, t.noApp) (hacts : ∀ a ∈ acts, actNoApp a) :
    (runActs (⟨init⟩ : Pipeline δ) acts).length =
      init.length + countApp acts := by
  induction acts generalizing init with
  | nil => rfl
  | cons a acts ih =>
      cases a with
      | app s =>
          have hs : s.noApp := hacts (PAct.app s) (List.mem_cons_self _ _)
          have h2 : ∀ t ∈ init ++ [s], t.noApp := by
            intro t ht
            rcases List.mem_append.mp ht with ht | ht
            · exact hinit t ht
            · rw [List.mem_singleton] at ht
              subst ht
              exact hs
          have hrec := ih (init ++ [s]) h2
            (fun a ha => hacts a (List.mem_cons_of_mem _ ha))
          show (runActs (⟨init ++ [s]⟩ : Pipeline δ) acts).length =
            init.length + (countApp acts + 1)
          rw [hrec, List.length_append]
          simp
          omega
      | inv d hOpt =>
          have hpq : ((⟨init⟩ : Pipeline δ).call d hOpt).pq = init :=
            cursorCall_pq (hOpt.getD (defaultErrorHandler δ)) init hinit d
              init
          show (runActs
              (⟨((⟨init⟩ : Pipeline δ).call d hOpt).pq⟩ : Pipeline δ)
              acts).length = init.length + countApp acts
          rw [hpq]
          exact ih init hinit
            (fun a ha => hacts a (List.mem_cons_of_mem _ ha))

/-- Witness for C8: one constructed step, two appends, one invocation in
between — the length is three. -/
theorem length_invariant_witness :
    (runActs (⟨[recorderStep Nat 0]⟩ : Pipeline Nat)
        [PAct.app (recorderStep Nat 1), PAct.inv 5 none,
          PAct.app (recorderStep Nat 2)]).length = 3 :=
  length_invariant [recorderStep Nat 0]
    [PAct.app (recorderStep Nat 1), PAct.inv 5 none,
      PAct.app (recorderStep Nat 2)]
    (by intro t ht; rw [List.mem_singleton] at ht; subst ht;
        exact fun d => rfl)
    (by
      intro a ha
      rcases List.mem_cons.mp ha with rfl | ha
      · exact fun d => rfl
      rcases List.mem_cons.mp ha with rfl | ha
      · trivial
      rcases List.mem_cons.mp ha with rfl | ha
      · exact fun d => rfl
      · cases ha)

/-- Claim C9 (fault-type gate): the cursor hands to the error handler only
faults of `Exception`-derived classes; a `BaseException`-style fault
raised by a step propagates out of the cursor invocation — through any
number of enclosing pass-through cursors — without the error handler ever
being invoked, whatever handler (even a swallowing one) is configured. -/
theorem base_exception_gate {δ : Type} (h : Handler δ)
    (pre : List (Step δ)) (s : Step δ) (rest : List (Step δ)) (d : δ)
    (pq : List (Step δ)) (E : Fault)
    (hpre : ∀ t ∈ pre, IsPass t)
    (hnc : noCallP (s.body d) = true)
    (hout : sOut (s.body d) = Outcome.fault E)
    (hbe : E.isException = false) :
    (cursorCall h (pre ++ s :: rest) d pq).out = Outcome.fault E ∧
    ∀ ev ∈ (cursorCall h (pre ++ s :: rest) d pq).log,
      isHandlerCall ev = false := by
  induction pre generalizing pq with
  | nil =>
      obtain ⟨hlog, hso⟩ := runS_noCall (cursorCall h rest) (s.body d) hnc pq
      rw [hout] at hso
      rw [List.nil_append, cursorCall_cons_base h s rest d pq E hso hbe]
      refine ⟨rfl, ?_⟩
      dsimp only
      rw [hlog]
      intro ev hev
      rw [List.mem_singleton] at hev
      subst hev
      rfl
  | cons t pre ih =>
      have hp : t.body = fun d2 => SProg.call d2 SProg.done :=
        hpre t (List.mem_cons_self t pre)
      have hprerest : ∀ u ∈ pre, IsPass u :=
        fun u hu => hpre u (List.mem_cons_of_mem t hu)
      obtain ⟨iho, ihl⟩ := ih pq hprerest
      have hbody : runS (cursorCall h (pre ++ s :: rest)) (t.body d) pq =
          ⟨(cursorCall h (pre ++ s :: rest) d pq).log, Outcome.fault E,
            (cursorCall h (pre ++ s :: rest) d pq).pq⟩ := by
        rw [hp]
        exact runS_call_fault (cursorCall h (pre ++ s :: rest)) d SProg.done
          pq E iho
      rw [List.cons_append,
        cursorCall_cons_base h t (pre ++ s :: rest) d pq E (by rw [hbody])
          hbe]
      refine ⟨rfl, ?_⟩
      dsimp only
      rw [hbody]
      intro ev hev
      rcases List.mem_cons.mp hev with rfl | hev
      · rfl
      · exact ihl ev hev

/-- Witness for C9: `[pass 0, raises(exit), recorder 2]` with a swallowing
handler — the `SystemExit`-style fault passes both cursor boundaries and
the handler is never called. -/
theorem base_exception_gate_witness :
    (cursorCall swallowHandler
        ([passStep Nat 0] ++ raiserStep Nat 1 exitFault ::
          [recorderStep Nat 2]) 4 []).out = Outcome.fault exitFault ∧
    ∀ ev ∈ (cursorCall swallowHandler
        ([passStep Nat 0] ++ raiserStep Nat 1 exitFault ::
          [recorderStep Nat 2]) 4 []).log,
      isHandlerCall ev = false :=
  base_exception_gate swallowHandler [passStep Nat 0]
    (raiserStep Nat 1 exitFault) [recorderStep Nat 2] 4 [] exitFault
    (by intro t ht; rw [List.mem_singleton] at ht; subst ht; rfl)
    rfl rfl rfl

/-- Claim C10 (handler re-invocation under re-raise): for `[s0, s1]` where
`s0` calls its continuation and `s1` raises, a re-raising handler is
invoked twice for the single fault — first at the cursor enclosing `s1`
with the continuation over the empty tail, then at the cursor enclosing
`s0` with the continuation over `[s1]` — and the fault still escapes;
moreover a handler that re-raises at the innermost level but resumes at
the outer level makes `s1` execute twice, so a pipeline slot can run more
than once. -/
theorem handler_reinvocation :
    ((reraisePipeline.call 3 none).log =
        [Ev.stepExec 0 3, Ev.stepExec 1 3, Ev.handlerCall boomFault 3 [],
          Ev.handlerCall boomFault 3 [1]] ∧
      (reraisePipeline.call 3 none).out = Outcome.fault boomFault) ∧
    execIds (reraisePipeline.call 3 (some levelHandler)).log = [0, 1, 1] :=
  ⟨⟨rfl, rfl⟩, rfl⟩

end PipelineBase
